import Mathlib

/-!
Verification of the hydrasdr_433 wideband DSP core against its
natural-language specification.

Shallow embedding conventions:
* 32-bit float sample values are modelled as exact rationals (ℚ); the spec
  claims verified here are about control flow, counts, buffer sizes and
  state effects, none of which depend on rounding.
* C machine integers are modelled as ℕ / ℤ, with explicit `% 2 ^ 64`
  where `size_t` wrap-around matters (LP64 model: 32-bit `int`,
  64-bit `size_t`).
* Transcendental filter/twiddle design (`sinf`, `cosf`, Kaiser windows)
  is abstracted as an oracle parameter holding the designed coefficient
  table; the claims quantify over it.
-/

namespace HydraSDR

/-! ## Cross-channel deduplication (src/src/wb_dedup.c) -/

/-- One ring entry: FNV-1a fingerprint (`uint32_t hash`), channel centre
frequency in Hz (`float freq`), microsecond timestamp (`int64_t`).
From `struct wb_dedup_entry`. -/
structure DedupEntry where
  hash : ℕ
  freq : ℚ
  timestampUs : ℤ

/-- The dedup ring: fixed cache of `WB_DEDUP_CACHE_SIZE` entries, a head
index (next write position) and a count of entries in use.
From `struct wb_dedup`. -/
structure DedupState where
  cache : ℕ → DedupEntry
  head : ℕ
  count : ℕ

def WB_DEDUP_CACHE_SIZE : ℕ := 32

def WB_DEDUP_WINDOW_US : ℤ := 500000

def MIN_FREQ_DIFF : ℚ := 1000

/-- The per-entry test from the scan loop of `wb_dedup_check`
(wb_dedup.c lines 145-159): hash equal, not older than the window, and
centre frequency more than `MIN_FREQ_DIFF` away. -/
def dedupEntryMatches (e : DedupEntry) (h : ℕ) (now : ℤ) (freq : ℚ) : Bool :=
  e.hash == h && decide (now - e.timestampUs ≤ WB_DEDUP_WINDOW_US)
    && decide (MIN_FREQ_DIFF < |freq - e.freq|)

/-- `wb_dedup_check` (wb_dedup.c lines 135-172), with the fingerprint `h`
of the decoded record and the current timestamp `now` passed explicitly
(the C function computes them from the record and the wall clock).
Returns the suppress flag and the updated ring.  The C loop returns 1 at
the first matching entry, leaving the ring untouched, so scanning order
is irrelevant; otherwise the new entry is written at the head, the head
advances modulo the cache size and the count grows up to the cap. -/
def wb_dedup_check (st : DedupState) (h : ℕ) (freq : ℚ) (now : ℤ) :
    Bool × DedupState :=
  if (List.range st.count).any (fun i => dedupEntryMatches (st.cache i) h now freq) then
    (true, st)
  else
    (false,
      { cache := fun i => if i = st.head then ⟨h, freq, now⟩ else st.cache i
        head := (st.head + 1) % WB_DEDUP_CACHE_SIZE
        count := if st.count < WB_DEDUP_CACHE_SIZE then st.count + 1 else st.count })

/-! ## Rational resampler (src/src/cf32_resampler.c) -/

def RESAMPLER_TAPS_PER_BRANCH : ℕ := 32

/-- `INT_MAX` for the 32-bit `int` of the C code. -/
def INT_MAX : ℕ := 2 ^ 31 - 1

/-- `SIZE_MAX` for a 64-bit `size_t` (LP64 model). -/
def SIZE_MAX : ℕ := 2 ^ 64 - 1

/-- `cf32_resampler_t` (include/cf32_resampler.h).  Sample values and the
polyphase coefficient table are exact rationals; the `float **branches`
pointer array is folded into the two-argument coefficient function. -/
structure Resampler where
  upFactor : ℕ
  downFactor : ℕ
  numTaps : ℕ
  tapsPerBranch : ℕ
  phaseIdx : ℤ
  branches : ℕ → ℕ → ℚ
  histI : ℕ → ℚ
  histQ : ℕ → ℚ
  histSize : ℕ
  histMask : ℕ
  writePos : ℕ
  outputBufSize : ℕ
  initialized : Bool

/-- `cf32_resampler_init` (cf32_resampler.c lines 97-200).  `proto` is the
prototype low-pass coefficient table produced by
`cf32_resampler_design_filter` scaled by `up_factor` (float transcendental
math abstracted as an oracle); allocations are modelled as succeeding.
`none` models the `-1` error return.  All `size_t` arithmetic for the
output buffer size is taken modulo `2 ^ 64`, exactly as the C
multiplication `max_input_samples * (size_t)up_factor` wraps.
The history size starts at 64 and doubles while below
`taps_per_branch * 2 = 64`, so the loop body never runs. -/
def cf32_resampler_init (input_rate output_rate : ℕ) (max_input : ℕ)
    (proto : ℕ → ℚ) : Option Resampler :=
  if input_rate = 0 ∨ output_rate = 0 then none
  else if input_rate = output_rate then
    -- memset to zero, initialized = 0: no resampling needed
    some { upFactor := 0, downFactor := 0, numTaps := 0, tapsPerBranch := 0
           phaseIdx := 0, branches := fun _ _ => 0
           histI := fun _ => 0, histQ := fun _ => 0
           histSize := 0, histMask := 0, writePos := 0
           outputBufSize := 0, initialized := false }
  else if INT_MAX < input_rate ∨ INT_MAX < output_rate then none
  else
    let g := Nat.gcd output_rate input_rate
    let L := output_rate / g
    let M := input_rate / g
    if INT_MAX / RESAMPLER_TAPS_PER_BRANCH < L then none
    else
      let numTaps := RESAMPLER_TAPS_PER_BRANCH * L
      let bufSize := (max_input * L % 2 ^ 64 / M + L + 1) % 2 ^ 64
      if SIZE_MAX / (2 * 4) < bufSize then none
      else
        some { upFactor := L, downFactor := M, numTaps := numTaps
               tapsPerBranch := RESAMPLER_TAPS_PER_BRANCH
               phaseIdx := 0
               branches := fun m k =>
                 if m + k * L < numTaps then proto (m + k * L) else 0
               histI := fun _ => 0, histQ := fun _ => 0
               histSize := 64, histMask := 63, writePos := 0
               outputBufSize := bufSize, initialized := true }

/-- Read-position chain of the FIR loop in `cf32_resampler_process`:
`read_pos = (read_pos - 1) & hist_mask` applied `k` times to `base`.
For the power-of-two history sizes produced by init this two's-complement
masked decrement equals decrement modulo `hist_mask + 1`. -/
def rdPos (base mask : ℕ) : ℕ → ℕ
  | 0 => base
  | k + 1 => (rdPos base mask k + mask) % (mask + 1)

/-- The FIR dot product of the emit loop (cf32_resampler.c lines
227-231): accumulate `hist[read_pos] * branch[k]` walking the read
position backwards from `base`. -/
def firDot (hist : ℕ → ℚ) (branch : ℕ → ℚ) (taps base mask : ℕ) : ℚ :=
  ∑ k ∈ Finset.range taps, hist (rdPos base mask k) * branch k

/-- Body of the inner `while (phase < L && out_idx < max_output)` loop
of `cf32_resampler_process` (cf32_resampler.c lines 221-239), with the
iteration count bounded structurally by `fuel`: every iteration
increments `out_idx` while the guard requires `out_idx < max_output`,
so `fuel = max_output - out_idx` makes the fuel run out exactly when the
guard fails anyway. -/
def emitLoopF (res : Resampler) (base : ℕ) (maxOut : ℕ) :
    ℕ → ℤ → ℕ → List (ℚ × ℚ) → ℤ × ℕ × List (ℚ × ℚ)
  | 0, phase, outIdx, acc => (phase, outIdx, acc)
  | fuel + 1, phase, outIdx, acc =>
    if phase < (res.upFactor : ℤ) ∧ outIdx < maxOut then
      emitLoopF res base maxOut fuel (phase + (res.downFactor : ℤ)) (outIdx + 1)
        (acc ++ [(firDot res.histI (res.branches phase.toNat) res.tapsPerBranch base res.histMask,
                  firDot res.histQ (res.branches phase.toNat) res.tapsPerBranch base res.histMask)])
    else (phase, outIdx, acc)

/-- Inner `while (phase < L && out_idx < max_output)` loop of
`cf32_resampler_process`: emit the dot product of the history with
polyphase branch `phase`, advance `phase` by `M`, until the phase runs
past `L` or the output capacity is exhausted.  Returns the final phase,
the final `out_idx`, and the output samples written so far (in buffer
order). -/
def emitLoop (res : Resampler) (base : ℕ) (maxOut : ℕ)
    (phase : ℤ) (outIdx : ℕ) (acc : List (ℚ × ℚ)) : ℤ × ℕ × List (ℚ × ℚ) :=
  emitLoopF res base maxOut (maxOut - outIdx) phase outIdx acc

/-- The history write of one outer-loop iteration (cf32_resampler.c lines
214-217): store the sample at `write_pos & hist_mask` in both circular
buffers and advance the write position. -/
def pushSample (res : Resampler) (xi xq : ℚ) : Resampler :=
  { res with
    histI := fun j => if j = res.writePos &&& res.histMask then xi else res.histI j
    histQ := fun j => if j = res.writePos &&& res.histMask then xq else res.histQ j
    writePos := res.writePos + 1 }

/-- `base_read_pos = (write_pos - 1) & hist_mask` taken after the write
position was advanced by `pushSample`, so it addresses the sample just
written. -/
def basePos (res : Resampler) : ℕ := (res.writePos + 1 - 1) &&& res.histMask

/-- The state after one outer-loop iteration: the sample pushed into the
history and the phase left by the emit loop reduced by `L`
(`phase -= L`, cf32_resampler.c line 241). -/
def stepState (res : Resampler) (xi xq : ℚ) (maxOut outIdx : ℕ)
    (acc : List (ℚ × ℚ)) : Resampler :=
  { pushSample res xi xq with
    phaseIdx :=
      (emitLoop (pushSample res xi xq) (basePos res) maxOut res.phaseIdx outIdx acc).1
        - (res.upFactor : ℤ) }

/-- Outer `for (n = 0; n < num_iq_samples && out_idx < max_output; n++)`
loop of `cf32_resampler_process` (lines 213-242): push the sample into
the circular history, run the emit loop, then reduce the phase by `L`. -/
def procLoop (maxOut : ℕ) : List (ℚ × ℚ) → Resampler → ℕ → List (ℚ × ℚ) →
    Resampler × ℕ × List (ℚ × ℚ)
  | [], res, outIdx, acc => (res, outIdx, acc)
  | (xi, xq) :: rest, res, outIdx, acc =>
    if outIdx < maxOut then
      procLoop maxOut rest (stepState res xi xq maxOut outIdx acc)
        (emitLoop (pushSample res xi xq) (basePos res) maxOut res.phaseIdx outIdx acc).2.1
        (emitLoop (pushSample res xi xq) (basePos res) maxOut res.phaseIdx outIdx acc).2.2
    else (res, outIdx, acc)

/-- `cf32_resampler_process` (cf32_resampler.c lines 202-247).  The input
is the interleaved IQ buffer as a list of complex samples; the result is
the updated state, the returned sample count `out_idx`, and the samples
written to the output buffer this call.  `max_output` is clamped to the
internal output buffer size before the loop. -/
def cf32_resampler_process (res : Resampler) (input : List (ℚ × ℚ))
    (maxOutput : ℕ) : Resampler × ℕ × List (ℚ × ℚ) :=
  procLoop (min maxOutput res.outputBufSize) input res 0 []

/-- Positive ceiling division `max 0 ⌈a / M⌉` on an integer numerator,
used to state the resampler output-count theorems. -/
def ceilPos (a : ℤ) (M : ℕ) : ℕ := (a.toNat + (M - 1)) / M

/-! ## PFB channelizer (src/src/channelizer.c) -/

def CHANNELIZER_MAX_CHANNELS : ℕ := 16

def FILTER_SEMI_LEN : ℕ := 24

def TAPS_PER_BRANCH : ℕ := 2 * FILTER_SEMI_LEN

/-- `is_power_of_2` (channelizer.c line 92). -/
def is_power_of_2 (n : ℕ) : Bool := decide (0 < n) && (n &&& (n - 1) == 0)

/-- `channelizer_t` (include/channelizer.h), restricted to the fields the
hot path reads or writes.  Window buffers are per-branch value functions;
the `hlfft_plan_t *` is the forward transform the plan stands for (its
numerical content is irrelevant to the count and buffer claims, which
hold for every transform). -/
structure Channelizer where
  numChannels : ℕ
  decimationFactor : ℕ
  channelMask : ℕ
  tapsPerBranch : ℕ
  windowLen : ℕ
  windowAlloc : ℕ
  branches : ℕ → ℕ → ℚ
  windowRe : ℕ → ℕ → ℚ
  windowIm : ℕ → ℕ → ℚ
  windowWritePos : ℕ → ℕ
  filterIndex : ℕ
  fftPlan : (ℕ → ℚ) → (ℕ → ℚ) → (ℕ → ℚ) × (ℕ → ℚ)
  channelOutputs : ℕ → ℕ → ℚ × ℚ
  outputBufSize : ℕ
  channelFreqs : ℕ → ℚ
  initialized : Bool

/-- Channel centre-frequency table of `channelizer_init`
(channelizer.c lines 435-449). -/
def channelFreqTable (M : ℕ) (center : ℚ) (spacing : ℚ) (c : ℕ) : ℚ :=
  if c = 0 then center
  else if c ≤ M / 2 then center + (c : ℚ) * spacing
  else center + ((c : ℚ) - (M : ℚ)) * spacing

/-- `channelizer_init` (channelizer.c lines 203-453).  `proto` is the
Kaiser prototype filter table from `design_kaiser_filter` (transcendental
float math abstracted as an oracle), `fft` the forward transform realised
by the created `hlfft` plan; allocations and the global FFT library
handshake are modelled as succeeding.  `none` models the `-1` error
return. -/
def channelizer_init (num_channels : ℕ) (center_freq : ℚ)
    (input_rate : ℕ) (max_input : ℕ) (proto : ℕ → ℚ)
    (fft : (ℕ → ℚ) → (ℕ → ℚ) → (ℕ → ℚ) × (ℕ → ℚ)) : Option Channelizer :=
  if num_channels < 2 ∨ CHANNELIZER_MAX_CHANNELS < num_channels then none
  else if is_power_of_2 num_channels = false then none
  else if input_rate = 0 then none
  else
    let M := num_channels
    let p := TAPS_PER_BRANCH
    let hLen := 2 * M * FILTER_SEMI_LEN + 1
    some { numChannels := M
           decimationFactor := M / 2
           channelMask := M - 1
           tapsPerBranch := p
           windowLen := p
           windowAlloc := 2 * p
           -- branch i stores the sub-sampled prototype reversed:
           -- branches[i][p-n-1] = proto[i + n*M] (zero beyond h_len)
           branches := fun i k =>
             if k < p ∧ i + (p - 1 - k) * M < hLen then proto (i + (p - 1 - k) * M)
             else 0
           windowRe := fun _ _ => 0
           windowIm := fun _ _ => 0
           windowWritePos := fun _ => p
           filterIndex := M - 1
           fftPlan := fft
           channelOutputs := fun _ _ => 0
           outputBufSize := max (max_input / (M / 2) + 1) 2
           channelFreqs := channelFreqTable M center_freq ((input_rate : ℚ) / (M : ℚ))
           initialized := true }

/-- One commutator push (channelizer.c lines 501-519): write the sample
into the window of the branch at `filter_index`, advance that branch's
write cursor, shift the window down by `window_len` when the cursor
reaches `window_alloc`, and step the commutator
`filter_index = (filter_index + M - 1) & channel_mask` (equal to
decrement modulo `M` for the power-of-two `M` of every initialized
state). -/
def commutatorPush (ch : Channelizer) (x : ℚ × ℚ) : Channelizer :=
  let idx := ch.filterIndex
  let pos := ch.windowWritePos idx
  let wre := fun i j => if i = idx ∧ j = pos then x.1 else ch.windowRe i j
  let wim := fun i j => if i = idx ∧ j = pos then x.2 else ch.windowIm i j
  let nextIndex := (idx + ch.numChannels - 1) % (ch.channelMask + 1)
  if ch.windowAlloc ≤ pos + 1 then
    { ch with
      windowRe := fun i j =>
        if i = idx ∧ j < ch.windowLen then wre i (j + ch.windowLen) else wre i j
      windowIm := fun i j =>
        if i = idx ∧ j < ch.windowLen then wim i (j + ch.windowLen) else wim i j
      windowWritePos := fun i => if i = idx then ch.windowLen else ch.windowWritePos i
      filterIndex := nextIndex }
  else
    { ch with
      windowRe := wre
      windowIm := wim
      windowWritePos := fun i => if i = idx then pos + 1 else ch.windowWritePos i
      filterIndex := nextIndex }

/-- Push one block of `D` input samples through the commutator
(channelizer.c lines 501-519, the inner `for (i = 0; i < D; i++)`). -/
def pushBlock (ch : Channelizer) (blockSamples : List (ℚ × ℚ)) : Channelizer :=
  blockSamples.foldl commutatorPush ch

/-- Branch dot products, FFT and phase-corrected output store for one
block (channelizer.c lines 521-556).  The store happens only while
`output_idx < output_buf_size`; blocks past that bound advance nothing
but are still fully computed and their outputs discarded. -/
def analyzeBlock (ch : Channelizer) (outputIdx : ℕ) : Channelizer × ℕ :=
  let M := ch.numChannels
  let fftInRe : ℕ → ℚ := fun oi =>
    if oi < M then
      let i := M - 1 - oi
      let index := (i + ch.filterIndex + 1) % (ch.channelMask + 1)
      let start := ch.windowWritePos index - ch.tapsPerBranch
      ∑ k ∈ Finset.range ch.tapsPerBranch,
        ch.windowRe index (start + k) * ch.branches i k
    else 0
  let fftInIm : ℕ → ℚ := fun oi =>
    if oi < M then
      let i := M - 1 - oi
      let index := (i + ch.filterIndex + 1) % (ch.channelMask + 1)
      let start := ch.windowWritePos index - ch.tapsPerBranch
      ∑ k ∈ Finset.range ch.tapsPerBranch,
        ch.windowIm index (start + k) * ch.branches i k
    else 0
  let fftOut := ch.fftPlan fftInRe fftInIm
  if outputIdx < ch.outputBufSize then
    ({ ch with channelOutputs := fun c j =>
        if c < M ∧ j = outputIdx then
          -- sign = 1 - 2*((c & output_idx) & 1): OS-PFB phase correction
          let sign : ℚ := 1 - 2 * (((c &&& outputIdx) &&& 1 : ℕ) : ℚ)
          (fftOut.1 c * sign, fftOut.2 c * sign)
        else ch.channelOutputs c j },
     outputIdx + 1)
  else (ch, outputIdx)

/-- One iteration of the main block loop of `channelizer_process`:
commutator pushes for the `D` samples of the block, then the analyzer. -/
def processBlock (ch : Channelizer) (blockSamples : List (ℚ × ℚ))
    (outputIdx : ℕ) : Channelizer × ℕ :=
  let ch1 := pushBlock ch blockSamples
  analyzeBlock ch1 outputIdx

/-- The `D` consecutive input samples of block `b`. -/
def blockInput (D : ℕ) (input : ℕ → ℚ × ℚ) (b : ℕ) : List (ℚ × ℚ) :=
  (List.range D).map fun i => input (b * D + i)

/-- `channelizer_process` (channelizer.c lines 463-569).  `none` models
the `-1` return for an uninitialized handle (null/negative-length checks
are outside the ℕ/total-function embedding).  The
`for (s = 0; s + D <= n_samples; s += D)` loop runs exactly
`n_samples / D` times; the result carries the final state and the
returned `*out_samples`. -/
def channelizer_process (ch : Channelizer) (input : ℕ → ℚ × ℚ)
    (n_samples : ℕ) : Option (Channelizer × ℕ) :=
  if ch.initialized = false then none
  else
    some ((List.range (n_samples / ch.decimationFactor)).foldl
      (fun acc b => processBlock acc.1 (blockInput ch.decimationFactor input b) acc.2)
      (ch, 0))

/-- The window/commutator state after consuming all full blocks with the
analyzer and output stores stripped out; used to state that output
discarding never stops the filter windows from advancing. -/
def pushAllBlocks (ch : Channelizer) (input : ℕ → ℚ × ℚ)
    (n_samples : ℕ) : Channelizer :=
  (List.range (n_samples / ch.decimationFactor)).foldl
    (fun c b => pushBlock c (blockInput ch.decimationFactor input b)) ch

/-! ## hydrasdr-lfft FFT library
(src/external/hydrasdr-lfft/hydrasdr_lfft.c, stockham_scalar.c) -/

def HLFFT_MIN_SIZE : ℕ := 2

def SFFT_MIN_SIZE : ℕ := 2

/-- `hlfft_size_valid` (hydrasdr_lfft.c lines 161-165): at least
`HLFFT_MIN_SIZE` and a power of two.  No upper bound is checked. -/
def hlfft_size_valid (n : ℕ) : Bool :=
  decide (HLFFT_MIN_SIZE ≤ n) && (n &&& (n - 1) == 0)

/-- `is_power_of_2` (stockham_scalar.c line 85). -/
def sfft_is_power_of_2 (n : ℕ) : Bool := decide (0 < n) && (n &&& (n - 1) == 0)

/-- `log2_size` (stockham_scalar.c lines 90-96): smallest `k` with
`2 ^ k ≥ n`, computed by the same incrementing loop; the fuel `n` bounds
the iteration count (the loop runs at most `⌈log₂ n⌉ ≤ n` times). -/
def log2_size_loop (n : ℕ) : ℕ → ℕ → ℕ
  | 0, k => k
  | fuel + 1, k => if 2 ^ k < n then log2_size_loop n fuel (k + 1) else k

def log2_size (n : ℕ) : ℕ := log2_size_loop n n 0

/-- `struct sfft_plan` (stockham_scalar.c lines 35-65), restricted to the
complex-to-complex transform path.  `tw s j` is the fundamental twiddle
`W^(j·4^s)` of radix-4 stage `s` as computed by `compute_twiddles`
(`cos`/`sin` floats abstracted as plan data; every theorem below holds
for arbitrary twiddle content). -/
structure SfftPlan where
  n : ℕ
  log2n : ℕ
  log4n : ℕ
  hasRadix2Stage : Bool
  tw : ℕ → ℕ → ℚ × ℚ

/-- `scalar_plan_create` (stockham_scalar.c lines 230-286) with
allocation success explicit.  Rejects sizes that are not powers of two
or below `SFFT_MIN_SIZE`; otherwise fills in the stage bookkeeping. -/
def scalar_plan_create (n : ℕ) (allocOk : Bool) (tw : ℕ → ℕ → ℚ × ℚ) :
    Option SfftPlan :=
  if sfft_is_power_of_2 n = false ∨ n < SFFT_MIN_SIZE then none
  else if allocOk = false then none
  else
    some { n := n
           log2n := log2_size n
           log4n := log2_size n / 2
           hasRadix2Stage := log2_size n % 2 ≠ 0
           tw := tw }

/-- `struct hlfft_plan` (hydrasdr_lfft.c lines 28-31). -/
structure HlfftPlan where
  n : ℕ
  stockham : SfftPlan

/-- `hlfft_plan_create` (hydrasdr_lfft.c lines 55-79): validate the size
with `hlfft_size_valid`, then build the scalar Stockham plan.  `none`
models the NULL return. -/
def hlfft_plan_create (n : ℕ) (allocOk : Bool) (tw : ℕ → ℕ → ℚ × ℚ) :
    Option HlfftPlan :=
  if hlfft_size_valid n = false then none
  else if allocOk = false then none
  else (scalar_plan_create n allocOk tw).map fun sp => { n := n, stockham := sp }

/-- The radix-4 butterfly with on-the-fly twiddles
(`RADIX4_BUTTERFLY_OTF`, stockham_scalar.c lines 347-388): given the
fundamental twiddle `w1` and the four inputs, produce the four outputs
`(X0, X1, X2, X3)`; `W2 = W1·W1` and `W3 = W2·W1` are recomputed. -/
def radix4Butterfly (w1 a0 a1 a2 a3 : ℚ × ℚ) : (ℚ × ℚ) × (ℚ × ℚ) × (ℚ × ℚ) × (ℚ × ℚ) :=
  let w2 : ℚ × ℚ := (w1.1 * w1.1 - w1.2 * w1.2, 2 * w1.1 * w1.2)
  let w3 : ℚ × ℚ := (w2.1 * w1.1 - w2.2 * w1.2, w2.1 * w1.2 + w2.2 * w1.1)
  let t0 : ℚ × ℚ := (a0.1 + a2.1, a0.2 + a2.2)
  let t1 : ℚ × ℚ := (a0.1 - a2.1, a0.2 - a2.2)
  let t2 : ℚ × ℚ := (a1.1 + a3.1, a1.2 + a3.2)
  let t3 : ℚ × ℚ := (a1.1 - a3.1, a1.2 - a3.2)
  let u1 : ℚ × ℚ := (t1.1 + t3.2, t1.2 - t3.1)
  let u2 : ℚ × ℚ := (t0.1 - t2.1, t0.2 - t2.2)
  let u3 : ℚ × ℚ := (t1.1 - t3.2, t1.2 + t3.1)
  ((t0.1 + t2.1, t0.2 + t2.2),
   (u1.1 * w1.1 - u1.2 * w1.2, u1.1 * w1.2 + u1.2 * w1.1),
   (u2.1 * w2.1 - u2.2 * w2.2, u2.1 * w2.2 + u2.2 * w2.1),
   (u3.1 * w3.1 - u3.2 * w3.2, u3.1 * w3.2 + u3.2 * w3.1))

/-- `stockham_radix4_otf_scalar` (stockham_scalar.c lines 390-471) as a
pointwise map.  The loop writes, for block `b < 4 ^ stage` and lane
`j < quarter_m`, butterfly output `q` to destination index
`q * quarter_n + b * quarter_m + j` (with `quarter_n = n / 4`,
`m = n >>> (2·stage)`, `quarter_m = m / 4`,
`quarter_n = num_blocks * quarter_m`); every destination index `< n`
decomposes uniquely that way, so the destination is described by the
decomposition `q = i / quarter_n`, `b = (i % quarter_n) / quarter_m`,
`j = i % quarter_m`.  Indices `≥ n` keep the source value (buffer junk
outside the transform is irrelevant and never read back). -/
def radix4Stage (tw : ℕ → ℚ × ℚ) (n stage : ℕ) (src : ℕ → ℚ × ℚ) : ℕ → ℚ × ℚ :=
  fun i =>
    if i < n then
      let quarter_n := n / 4
      let m := n >>> (2 * stage)
      let quarter_m := m / 4
      let q := i / quarter_n
      let b := i % quarter_n / quarter_m
      let j := i % quarter_n % quarter_m
      let srcBase := b * m
      let out := radix4Butterfly (tw j)
        (src (srcBase + j)) (src (srcBase + quarter_m + j))
        (src (srcBase + 2 * quarter_m + j)) (src (srcBase + 3 * quarter_m + j))
      if q = 0 then out.1 else if q = 1 then out.2.1
      else if q = 2 then out.2.2.1 else out.2.2.2
    else src i

/-- `stockham_radix2_last_scalar` (stockham_scalar.c lines 484-587) as a
pointwise map: `dst[b] = src[2b] + src[2b+1]`,
`dst[b + n/2] = src[2b] - src[2b+1]`. -/
def radix2LastStage (n : ℕ) (src : ℕ → ℚ × ℚ) : ℕ → ℚ × ℚ :=
  fun i =>
    if i < n then
      let half_n := n / 2
      if i < half_n then
        ((src (2 * i)).1 + (src (2 * i + 1)).1,
         (src (2 * i)).2 + (src (2 * i + 1)).2)
      else
        ((src (2 * (i - half_n))).1 - (src (2 * (i - half_n) + 1)).1,
         (src (2 * (i - half_n))).2 - (src (2 * (i - half_n) + 1)).2)
    else src i

/-- The radix-4 stage loop of `scalar_forward` (stockham_scalar.c lines
703-711), running stages `s, s+1, …, log4n-1` over the ping-pong
buffers; the fuel `log4n - s` counts the remaining loop iterations
exactly. -/
def forwardRadix4LoopF (p : SfftPlan) : ℕ → ℕ → (ℕ → ℚ × ℚ) → (ℕ → ℚ × ℚ)
  | 0, _, buf => buf
  | fuel + 1, s, buf =>
    if s < p.log4n then
      forwardRadix4LoopF p fuel (s + 1) (radix4Stage (p.tw s) p.n s buf)
    else buf

def forwardRadix4Loop (p : SfftPlan) (s : ℕ) (buf : ℕ → ℚ × ℚ) : ℕ → ℚ × ℚ :=
  forwardRadix4LoopF p (p.log4n - s) s buf

/-- The radix-4 stage loop of `scalar_inverse` (stockham_scalar.c lines
748-755); textually the same loop as the forward one, duplicated in the
source. -/
def inverseRadix4LoopF (p : SfftPlan) : ℕ → ℕ → (ℕ → ℚ × ℚ) → (ℕ → ℚ × ℚ)
  | 0, _, buf => buf
  | fuel + 1, s, buf =>
    if s < p.log4n then
      inverseRadix4LoopF p fuel (s + 1) (radix4Stage (p.tw s) p.n s buf)
    else buf

def inverseRadix4Loop (p : SfftPlan) (s : ℕ) (buf : ℕ → ℚ × ℚ) : ℕ → ℚ × ℚ :=
  inverseRadix4LoopF p (p.log4n - s) s buf

/-- `scalar_forward` (stockham_scalar.c lines 683-722): AoS→SoA copy,
the radix-4 stages, the optional trailing radix-2 stage, SoA→AoS copy.
In the embedding both layouts are the same function type, so the copies
are identities. -/
def scalar_forward (p : SfftPlan) (input : ℕ → ℚ × ℚ) : ℕ → ℚ × ℚ :=
  let afterR4 := forwardRadix4Loop p 0 input
  if p.hasRadix2Stage then radix2LastStage p.n afterR4 else afterR4

/-- `scalar_inverse` (stockham_scalar.c lines 724-770): conjugate during
the input copy, run the same stage pipeline, conjugate during the output
copy.  No `1/N` scaling is applied anywhere. -/
def scalar_inverse (p : SfftPlan) (input : ℕ → ℚ × ℚ) : ℕ → ℚ × ℚ :=
  let conjIn : ℕ → ℚ × ℚ := fun i => ((input i).1, -(input i).2)
  let afterR4 := inverseRadix4Loop p 0 conjIn
  let res := if p.hasRadix2Stage then radix2LastStage p.n afterR4 else afterR4
  fun i => ((res i).1, -(res i).2)

/-- Complex conjugation of a sample, for stating the inverse-transform
relation. -/
def conjC (z : ℚ × ℚ) : ℚ × ℚ := (z.1, -z.2)

/-! ## Theorems: deduplication -/

/-- C3: `wb_dedup_check` returns suppress (1) if and only if the ring
holds an entry with the same FNV-1a fingerprint, timestamp within 500 ms
of the current decode, and stored centre frequency more than 1 kHz away;
same-frequency duplicates and entries outside the window never cause
suppression.  (Timestamps in the ring are assumed not to lie in the
future of the current decode, which holds for the monotone clock the
code reads.) -/
theorem wb_dedup_check_suppress_iff (st : DedupState) (h : ℕ) (freq : ℚ) (now : ℤ)
    (hmono : ∀ i < st.count, (st.cache i).timestampUs ≤ now) :
    (wb_dedup_check st h freq now).1 = true ↔
      ∃ i < st.count, (st.cache i).hash = h ∧
        |now - (st.cache i).timestampUs| ≤ 500000 ∧
        1000 < |freq - (st.cache i).freq| := by
  have hmain : (wb_dedup_check st h freq now).1
      = (List.range st.count).any (fun i => dedupEntryMatches (st.cache i) h now freq) := by
    cases hb : (List.range st.count).any
        (fun i => dedupEntryMatches (st.cache i) h now freq) <;>
      simp [wb_dedup_check, hb]
  rw [hmain, List.any_eq_true]
  constructor
  · rintro ⟨i, hi, hmatch⟩
    rw [List.mem_range] at hi
    have hts := hmono i hi
    simp only [dedupEntryMatches, Bool.and_eq_true, beq_iff_eq,
      decide_eq_true_eq, WB_DEDUP_WINDOW_US, MIN_FREQ_DIFF] at hmatch
    obtain ⟨⟨h1, h2⟩, h3⟩ := hmatch
    refine ⟨i, hi, h1, ?_, h3⟩
    rw [abs_of_nonneg (by omega : (0 : ℤ) ≤ now - (st.cache i).timestampUs)]
    omega
  · rintro ⟨i, hi, h1, h2, h3⟩
    have hts := hmono i hi
    refine ⟨i, List.mem_range.mpr hi, ?_⟩
    simp only [dedupEntryMatches, Bool.and_eq_true, beq_iff_eq,
      decide_eq_true_eq, WB_DEDUP_WINDOW_US, MIN_FREQ_DIFF]
    rw [abs_of_nonneg (by omega : (0 : ℤ) ≤ now - (st.cache i).timestampUs)] at h2
    exact ⟨⟨h1, by omega⟩, h3⟩

/-- Witness for C3: a ring with one matching entry 100 µs old at a
frequency 5 kHz away suppresses the decode. -/
theorem wb_dedup_check_suppress_iff_witness :
    (wb_dedup_check ⟨fun _ => ⟨5, 0, 0⟩, 0, 1⟩ 5 5000 100).1 = true := by
  have hiff := wb_dedup_check_suppress_iff ⟨fun _ => ⟨5, 0, 0⟩, 0, 1⟩ 5 5000 100
    (by intro i _; norm_num)
  exact hiff.mpr ⟨0, by norm_num, rfl, by norm_num, by norm_num⟩

/-- Counterexample for C8: a same-fingerprint, same-frequency record
inside the 500 ms window is allowed through but is nevertheless inserted
— the head advances from 1 to 2 and the count grows from 1 to 2, where
the claim says the ring, head and count are left unchanged. -/
theorem wb_dedup_check_insert_cex :
    (wb_dedup_check ⟨fun _ => ⟨5, 100, 0⟩, 1, 1⟩ 5 100 0).1 = false ∧
    (wb_dedup_check ⟨fun _ => ⟨5, 100, 0⟩, 1, 1⟩ 5 100 0).2.head = 2 ∧
    (wb_dedup_check ⟨fun _ => ⟨5, 100, 0⟩, 1, 1⟩ 5 100 0).2.count = 2 := by
  have hb : (List.range (1 : ℕ)).any
      (fun i => dedupEntryMatches ((⟨fun _ => ⟨5, 100, 0⟩, 1, 1⟩ : DedupState).cache i)
        5 0 100) = false := by
    simp [dedupEntryMatches, MIN_FREQ_DIFF, WB_DEDUP_WINDOW_US]
  refine ⟨?_, ?_, ?_⟩ <;>
    simp [wb_dedup_check, hb, WB_DEDUP_CACHE_SIZE]

/-- C8 (amended): the new entry is inserted at the ring head — head
advancing modulo 32, count growing up to the cap — if and only if the
decode is not suppressed; in particular a same-frequency duplicate
found inside the window is still recorded as a fresh entry, and only a
suppressed decode leaves the ring, head and count unchanged. -/
theorem wb_dedup_check_effect (st : DedupState) (h : ℕ) (freq : ℚ) (now : ℤ)
    (hcap : st.count ≤ WB_DEDUP_CACHE_SIZE) :
    ((wb_dedup_check st h freq now).1 = true → (wb_dedup_check st h freq now).2 = st) ∧
    ((wb_dedup_check st h freq now).1 = false →
      (wb_dedup_check st h freq now).2.head = (st.head + 1) % 32 ∧
      (wb_dedup_check st h freq now).2.count = min (st.count + 1) 32 ∧
      (wb_dedup_check st h freq now).2.cache st.head = ⟨h, freq, now⟩ ∧
      ∀ j, j ≠ st.head → (wb_dedup_check st h freq now).2.cache j = st.cache j) := by
  cases hb : (List.range st.count).any
      (fun i => dedupEntryMatches (st.cache i) h now freq)
  · refine ⟨fun hcontra => ?_, fun _ => ?_⟩
    · simp [wb_dedup_check, hb] at hcontra
    · refine ⟨by simp [wb_dedup_check, hb, WB_DEDUP_CACHE_SIZE], ?_,
        by simp [wb_dedup_check, hb], fun j hj => by simp [wb_dedup_check, hb, hj]⟩
      by_cases hc : st.count < WB_DEDUP_CACHE_SIZE
      · simp only [wb_dedup_check, hb, Bool.false_eq_true, if_false, if_pos hc]
        simp only [WB_DEDUP_CACHE_SIZE] at hc
        omega
      · simp only [wb_dedup_check, hb, Bool.false_eq_true, if_false, if_neg hc]
        simp only [WB_DEDUP_CACHE_SIZE] at hc hcap
        omega
  · simp [wb_dedup_check, hb]

/-- Witness for C8: inserting into an empty ring advances the head to 1. -/
theorem wb_dedup_check_effect_witness :
    (wb_dedup_check ⟨fun _ => ⟨0, 0, 0⟩, 0, 0⟩ 7 50 0).2.head = (0 + 1) % 32 :=
  ((wb_dedup_check_effect ⟨fun _ => ⟨0, 0, 0⟩, 0, 0⟩ 7 50 0 (by norm_num)).2
    (by decide)).1

/-! ## Theorems: resampler arithmetic toolkit -/

theorem ceilPos_le_iff {M : ℕ} (hM : 1 ≤ M) (a : ℤ) (k : ℕ) :
    ceilPos a M ≤ k ↔ a ≤ (k : ℤ) * (M : ℤ) := by
  unfold ceilPos
  rw [← Nat.lt_succ_iff, Nat.div_lt_iff_lt_mul (by omega : 0 < M)]
  have hexp : Nat.succ k * M = k * M + M := Nat.succ_mul k M
  rw [hexp]
  constructor
  · intro hlt
    have h1 : a.toNat ≤ k * M := by omega
    calc a ≤ ((k * M : ℕ) : ℤ) := Int.toNat_le.mp h1
    _ = (k : ℤ) * (M : ℤ) := by push_cast; ring
  · intro hle
    have h1 : a ≤ ((k * M : ℕ) : ℤ) := by push_cast; exact hle
    have h2 : a.toNat ≤ k * M := Int.toNat_le.mpr h1
    omega

theorem le_ceilPos_mul {M : ℕ} (hM : 1 ≤ M) (a : ℤ) :
    a ≤ (ceilPos a M : ℤ) * (M : ℤ) :=
  (ceilPos_le_iff hM a _).mp le_rfl

theorem ceilPos_mono {M : ℕ} (hM : 1 ≤ M) {a b : ℤ} (h : a ≤ b) :
    ceilPos a M ≤ ceilPos b M :=
  (ceilPos_le_iff hM a _).mpr (h.trans (le_ceilPos_mul hM b))

theorem ceilPos_eq_zero_iff {M : ℕ} (hM : 1 ≤ M) (a : ℤ) :
    ceilPos a M = 0 ↔ a ≤ 0 := by
  rw [← Nat.le_zero, ceilPos_le_iff hM]
  simp

theorem lt_of_lt_ceilPos {M : ℕ} (hM : 1 ≤ M) {a : ℤ} {e : ℕ}
    (h : e < ceilPos a M) : (e : ℤ) * (M : ℤ) < a := by
  by_contra hc
  push_neg at hc
  have := (ceilPos_le_iff hM a e).mpr hc
  omega

theorem ceilPos_sub_mul {M : ℕ} (hM : 1 ≤ M) (a : ℤ) (e : ℕ)
    (he : e ≤ ceilPos a M) :
    ceilPos (a - (e : ℤ) * (M : ℤ)) M = ceilPos a M - e := by
  apply Nat.le_antisymm
  · rw [ceilPos_le_iff hM]
    have h1 : a ≤ (ceilPos a M : ℤ) * (M : ℤ) := le_ceilPos_mul hM a
    have hcast : ((ceilPos a M - e : ℕ) : ℤ) = (ceilPos a M : ℤ) - (e : ℤ) := by
      omega
    rw [hcast, sub_mul]
    linarith
  · have h2 : a - (e : ℤ) * (M : ℤ)
        ≤ (ceilPos (a - (e : ℤ) * (M : ℤ)) M : ℤ) * (M : ℤ) :=
      le_ceilPos_mul hM _
    have h3 : ceilPos a M ≤ ceilPos (a - (e : ℤ) * (M : ℤ)) M + e := by
      rw [ceilPos_le_iff hM]
      push_cast
      rw [add_mul]
      linarith
    omega

theorem pushSample_upFactor (res : Resampler) (xi xq : ℚ) :
    (pushSample res xi xq).upFactor = res.upFactor := rfl

theorem pushSample_downFactor (res : Resampler) (xi xq : ℚ) :
    (pushSample res xi xq).downFactor = res.downFactor := rfl

theorem stepState_upFactor (res : Resampler) (xi xq : ℚ) (maxOut outIdx : ℕ)
    (acc : List (ℚ × ℚ)) :
    (stepState res xi xq maxOut outIdx acc).upFactor = res.upFactor := rfl

theorem stepState_downFactor (res : Resampler) (xi xq : ℚ) (maxOut outIdx : ℕ)
    (acc : List (ℚ × ℚ)) :
    (stepState res xi xq maxOut outIdx acc).downFactor = res.downFactor := rfl

theorem stepState_outputBufSize (res : Resampler) (xi xq : ℚ) (maxOut outIdx : ℕ)
    (acc : List (ℚ × ℚ)) :
    (stepState res xi xq maxOut outIdx acc).outputBufSize = res.outputBufSize := rfl

theorem stepState_phaseIdx (res : Resampler) (xi xq : ℚ) (maxOut outIdx : ℕ)
    (acc : List (ℚ × ℚ)) :
    (stepState res xi xq maxOut outIdx acc).phaseIdx
      = (emitLoop (pushSample res xi xq) (basePos res) maxOut res.phaseIdx outIdx acc).1
          - (res.upFactor : ℤ) := rfl

theorem emitLoopF_spec (res : Resampler) (base maxOut : ℕ)
    (hM : 1 ≤ res.downFactor) :
    ∀ (fuel : ℕ) (e : ℕ) (phase : ℤ) (outIdx : ℕ) (acc : List (ℚ × ℚ)),
      0 ≤ phase →
      ceilPos ((res.upFactor : ℤ) - phase) res.downFactor = e →
      outIdx + e ≤ maxOut →
      e ≤ fuel →
      (emitLoopF res base maxOut fuel phase outIdx acc).1
          = phase + (e : ℤ) * (res.downFactor : ℤ) ∧
      (emitLoopF res base maxOut fuel phase outIdx acc).2.1 = outIdx + e ∧
      (emitLoopF res base maxOut fuel phase outIdx acc).2.2.length
          = acc.length + e := by
  intro fuel
  induction fuel with
  | zero =>
    intro e phase outIdx acc hp he hcap hfuel
    have he0 : e = 0 := by omega
    subst he0
    simp [emitLoopF]
  | succ fuel ih =>
    intro e phase outIdx acc hp he hcap hfuel
    match e, he with
    | 0, he =>
      have hle : (res.upFactor : ℤ) - phase ≤ 0 :=
        (ceilPos_eq_zero_iff hM _).mp he
      simp only [emitLoopF]
      rw [if_neg (by intro hcon; omega)]
      simp
    | e + 1, he =>
      have hpos : (0 : ℤ) < (res.upFactor : ℤ) - phase := by
        by_contra hc
        push_neg at hc
        have := (ceilPos_eq_zero_iff hM ((res.upFactor : ℤ) - phase)).mpr hc
        omega
      have hguard : phase < (res.upFactor : ℤ) ∧ outIdx < maxOut :=
        ⟨by omega, by omega⟩
      have hnext : ceilPos ((res.upFactor : ℤ) - (phase + (res.downFactor : ℤ)))
          res.downFactor = e := by
        have harith : (res.upFactor : ℤ) - (phase + (res.downFactor : ℤ))
            = ((res.upFactor : ℤ) - phase) - ((1 : ℕ) : ℤ) * (res.downFactor : ℤ) := by
          push_cast; ring
        rw [harith, ceilPos_sub_mul hM _ 1 (by omega), he]
        omega
      have hM0 : (0 : ℤ) ≤ (res.downFactor : ℤ) := by positivity
      obtain ⟨ih1, ih2, ih3⟩ := ih e (phase + (res.downFactor : ℤ)) (outIdx + 1)
        (acc ++ [(firDot res.histI (res.branches phase.toNat) res.tapsPerBranch base res.histMask,
                  firDot res.histQ (res.branches phase.toNat) res.tapsPerBranch base res.histMask)])
        (by omega) hnext (by omega) (by omega)
      simp only [emitLoopF]
      rw [if_pos hguard]
      refine ⟨?_, ?_, ?_⟩
      · rw [ih1]; push_cast; ring
      · rw [ih2]; omega
      · rw [ih3]; simp; omega

/-- Specification of the emit loop: starting from a nonnegative phase,
with enough output capacity for the `e = ceilPos (L - phase) M` samples
this input will yield, the loop emits exactly `e` samples, advancing the
phase by `e·M` and the output index by `e`. -/
theorem emitLoop_spec (res : Resampler) (base maxOut : ℕ)
    (hM : 1 ≤ res.downFactor) :
    ∀ (e : ℕ) (phase : ℤ) (outIdx : ℕ) (acc : List (ℚ × ℚ)),
      0 ≤ phase →
      ceilPos ((res.upFactor : ℤ) - phase) res.downFactor = e →
      outIdx + e ≤ maxOut →
      (emitLoop res base maxOut phase outIdx acc).1
          = phase + (e : ℤ) * (res.downFactor : ℤ) ∧
      (emitLoop res base maxOut phase outIdx acc).2.1 = outIdx + e ∧
      (emitLoop res base maxOut phase outIdx acc).2.2.length = acc.length + e := by
  intro e phase outIdx acc hp he hcap
  exact emitLoopF_spec res base maxOut hM (maxOut - outIdx) e phase outIdx acc
    hp he hcap (by omega)

/-- Master specification of the outer sample loop.  With enough output
capacity for all producible samples, it emits exactly
`ceilPos (n·L - phase) M` samples; the final phase stays nonnegative,
and below `max L M` whenever the entry phase is. -/
theorem procLoop_master (maxOut : ℕ) :
    ∀ (input : List (ℚ × ℚ)) (res : Resampler) (outIdx : ℕ) (acc : List (ℚ × ℚ)),
      1 ≤ res.downFactor →
      0 ≤ res.phaseIdx →
      outIdx + ceilPos ((input.length * res.upFactor : ℤ) - res.phaseIdx)
          res.downFactor ≤ maxOut →
      ((procLoop maxOut input res outIdx acc).2.1
          = outIdx + ceilPos ((input.length * res.upFactor : ℤ) - res.phaseIdx)
              res.downFactor) ∧
      ((procLoop maxOut input res outIdx acc).2.2.length
          = acc.length + ceilPos ((input.length * res.upFactor : ℤ) - res.phaseIdx)
              res.downFactor) ∧
      (0 ≤ (procLoop maxOut input res outIdx acc).1.phaseIdx) ∧
      (res.phaseIdx < max res.upFactor res.downFactor →
        (procLoop maxOut input res outIdx acc).1.phaseIdx
          < max res.upFactor res.downFactor) := by
  intro input
  induction input with
  | nil =>
    intro res outIdx acc hM hp hcap
    simp only [procLoop, List.length_nil, Nat.cast_zero, zero_mul, zero_sub]
    have hT : ceilPos (-res.phaseIdx) res.downFactor = 0 :=
      (ceilPos_eq_zero_iff hM _).mpr (by omega)
    rw [hT]
    exact ⟨by omega, by omega, hp, fun h => h⟩
  | cons head rest ih =>
    obtain ⟨xi, xq⟩ := head
    intro res outIdx acc hM hp hcap
    by_cases hout : outIdx < maxOut
    · -- the sample is consumed
      have he1T : ceilPos ((res.upFactor : ℤ) - res.phaseIdx) res.downFactor
          ≤ ceilPos ((((xi, xq) :: rest).length * res.upFactor : ℤ) - res.phaseIdx)
              res.downFactor := by
        apply ceilPos_mono hM
        have h0 : (0 : ℤ) ≤ (rest.length : ℤ) * (res.upFactor : ℤ) := by positivity
        simp only [List.length_cons]
        push_cast
        nlinarith
      obtain ⟨e1spec1, e1spec2, e1spec3⟩ := emitLoop_spec (pushSample res xi xq)
        (basePos res) maxOut hM
        (ceilPos ((res.upFactor : ℤ) - res.phaseIdx) res.downFactor)
        res.phaseIdx outIdx acc hp rfl (by omega)
      rw [pushSample_downFactor] at e1spec1
      have hphase2 :
          (emitLoop (pushSample res xi xq) (basePos res) maxOut res.phaseIdx outIdx acc).1
            - (res.upFactor : ℤ)
          = res.phaseIdx
            + (ceilPos ((res.upFactor : ℤ) - res.phaseIdx) res.downFactor : ℤ)
              * (res.downFactor : ℤ) - (res.upFactor : ℤ) := by
        rw [e1spec1]
      have hp2 : (0 : ℤ) ≤ res.phaseIdx
          + (ceilPos ((res.upFactor : ℤ) - res.phaseIdx) res.downFactor : ℤ)
            * (res.downFactor : ℤ) - (res.upFactor : ℤ) := by
        have := le_ceilPos_mul hM ((res.upFactor : ℤ) - res.phaseIdx)
        linarith
      have hT2 : ceilPos ((rest.length * res.upFactor : ℤ)
            - (res.phaseIdx
              + (ceilPos ((res.upFactor : ℤ) - res.phaseIdx) res.downFactor : ℤ)
                * (res.downFactor : ℤ) - (res.upFactor : ℤ))) res.downFactor
          = ceilPos ((((xi, xq) :: rest).length * res.upFactor : ℤ) - res.phaseIdx)
              res.downFactor
            - ceilPos ((res.upFactor : ℤ) - res.phaseIdx) res.downFactor := by
        have harith : (rest.length * res.upFactor : ℤ)
              - (res.phaseIdx
                + (ceilPos ((res.upFactor : ℤ) - res.phaseIdx) res.downFactor : ℤ)
                  * (res.downFactor : ℤ) - (res.upFactor : ℤ))
            = ((((xi, xq) :: rest).length * res.upFactor : ℤ) - res.phaseIdx)
              - (ceilPos ((res.upFactor : ℤ) - res.phaseIdx) res.downFactor : ℤ)
                * (res.downFactor : ℤ) := by
          simp only [List.length_cons]
          push_cast
          ring
        rw [harith, ceilPos_sub_mul hM _ _ he1T]
      obtain ⟨ihcount, ihlen, ihnonneg, ihinv⟩ := ih
        (stepState res xi xq maxOut outIdx acc)
        ((emitLoop (pushSample res xi xq) (basePos res) maxOut res.phaseIdx outIdx acc).2.1)
        ((emitLoop (pushSample res xi xq) (basePos res) maxOut res.phaseIdx outIdx acc).2.2)
        (by rw [stepState_downFactor]; exact hM)
        (by rw [stepState_phaseIdx, hphase2]; exact hp2)
        (by
          rw [stepState_upFactor, stepState_downFactor, stepState_phaseIdx,
            e1spec2, hphase2, hT2]
          omega)
      rw [stepState_upFactor, stepState_downFactor, stepState_phaseIdx, hphase2, hT2]
        at ihcount ihlen
      rw [stepState_upFactor, stepState_downFactor, stepState_phaseIdx, hphase2]
        at ihinv
      rw [procLoop, if_pos hout]
      refine ⟨?_, ?_, ihnonneg, ?_⟩
      · rw [ihcount, e1spec2]
        omega
      · rw [ihlen, e1spec3]
        omega
      · intro hinv
        apply ihinv
        rcases Nat.eq_zero_or_pos
            (ceilPos ((res.upFactor : ℤ) - res.phaseIdx) res.downFactor) with hz | hposc
        · rw [hz]
          have hLp : (res.upFactor : ℤ) - res.phaseIdx ≤ 0 :=
            (ceilPos_eq_zero_iff hM _).mp hz
          have hL0 : (0 : ℤ) ≤ (res.upFactor : ℤ) := by positivity
          simp only [Nat.cast_zero, zero_mul, add_zero]
          omega
        · have hmin : ((ceilPos ((res.upFactor : ℤ) - res.phaseIdx) res.downFactor
                - 1 : ℕ) : ℤ) * (res.downFactor : ℤ)
              < (res.upFactor : ℤ) - res.phaseIdx :=
            lt_of_lt_ceilPos hM (by omega)
          have hcast : ((ceilPos ((res.upFactor : ℤ) - res.phaseIdx) res.downFactor
                - 1 : ℕ) : ℤ)
              = (ceilPos ((res.upFactor : ℤ) - res.phaseIdx) res.downFactor : ℤ) - 1 := by
            omega
          rw [hcast, sub_mul, one_mul] at hmin
          have hMmax : ((res.downFactor : ℕ) : ℤ)
              ≤ ((max res.upFactor res.downFactor : ℕ) : ℤ) := by
            exact_mod_cast le_max_right res.upFactor res.downFactor
          linarith
    · -- output capacity already exhausted: nothing is consumed
      have hT : ceilPos ((((xi, xq) :: rest).length * res.upFactor : ℤ) - res.phaseIdx)
          res.downFactor = 0 := by omega
      rw [procLoop, if_neg hout, hT]
      refine ⟨by simp, by simp, hp, fun h => h⟩

/-! ## Theorems: resampler claims -/

theorem nat_add_pred_div_le (a M : ℕ) (hM : 1 ≤ M) :
    (a + (M - 1)) / M ≤ a / M + 1 := by
  have hmod : a % M < M := Nat.mod_lt _ (by omega)
  have hsplit : a + (M - 1) = M * (a / M) + (a % M + (M - 1)) := by
    have := Nat.div_add_mod a M
    omega
  rw [hsplit, Nat.mul_add_div (by omega)]
  have : (a % M + (M - 1)) / M < 2 := by
    rw [Nat.div_lt_iff_lt_mul (by omega)]
    omega
  omega

/-- C2: for an initialized resampler entered with phase accumulator 0 and
output capacity at least `⌈n·L/M⌉`, processing `n` samples emits exactly
`⌈n·L/M⌉ = (n·L + M - 1) / M` output samples (each the dot product of
the pushed history with the polyphase branch selected by the running
phase), and exactly `n·L/M` when `M` divides `n`. -/
theorem cf32_resampler_process_count (res : Resampler) (input : List (ℚ × ℚ))
    (maxOutput : ℕ) (hL : 1 ≤ res.upFactor) (hM : 1 ≤ res.downFactor)
    (hp : res.phaseIdx = 0)
    (hcap : (input.length * res.upFactor + (res.downFactor - 1)) / res.downFactor
      ≤ min maxOutput res.outputBufSize) :
    (cf32_resampler_process res input maxOutput).2.1
        = (input.length * res.upFactor + (res.downFactor - 1)) / res.downFactor ∧
    (cf32_resampler_process res input maxOutput).2.2.length
        = (input.length * res.upFactor + (res.downFactor - 1)) / res.downFactor ∧
    (res.downFactor ∣ input.length →
      (cf32_resampler_process res input maxOutput).2.1
        = input.length * res.upFactor / res.downFactor) := by
  have hbridge : ceilPos ((input.length * res.upFactor : ℤ) - res.phaseIdx)
      res.downFactor
      = (input.length * res.upFactor + (res.downFactor - 1)) / res.downFactor := by
    rw [hp, sub_zero]
    unfold ceilPos
    rw [← Nat.cast_mul, Int.toNat_natCast]
  obtain ⟨h1, h2, _, _⟩ := procLoop_master (min maxOutput res.outputBufSize) input res
    0 [] hM (by rw [hp]) (by rw [hbridge]; omega)
  have hproc : cf32_resampler_process res input maxOutput
      = procLoop (min maxOutput res.outputBufSize) input res 0 [] := rfl
  refine ⟨by rw [hproc, h1, hbridge]; omega, by rw [hproc, h2, hbridge]; simp, ?_⟩
  rintro ⟨c, hc⟩
  rw [hproc, h1, hbridge, hc]
  have hassoc : res.downFactor * c * res.upFactor
      = res.downFactor * (c * res.upFactor) := by ring
  rw [hassoc, Nat.mul_add_div (by omega), Nat.mul_div_cancel_left _ (by omega : 0 < res.downFactor)]
  have : (res.downFactor - 1) / res.downFactor = 0 :=
    Nat.div_eq_of_lt (by omega)
  omega

/-- Witness for C2: a 3/2 resampler fed 2 samples from phase 0 with ample
capacity emits exactly `⌈2·3/2⌉ = 3` samples. -/
theorem cf32_resampler_process_count_witness :
    (cf32_resampler_process
      ⟨3, 2, 0, 0, 0, fun _ _ => 0, fun _ => 0, fun _ => 0, 64, 63, 0, 10, true⟩
      [(1, 0), (0, 2)] 10).2.1 = 3 := by
  have h := (cf32_resampler_process_count
    ⟨3, 2, 0, 0, 0, fun _ _ => 0, fun _ => 0, fun _ => 0, 64, 63, 0, 10, true⟩
    [(1, 0), (0, 2)] 10 (by norm_num) (by norm_num) rfl (by norm_num)).1
  simpa using h

/-- Counterexample for C4: a 1/2 resampler (input rate 2, output rate 1)
built by `cf32_resampler_init` enters `cf32_resampler_process` with
phase 0 and leaves it, after one sample and with ample capacity, with
phase accumulator 1 — outside `[0, L) = [0, 1)` as the claim requires. -/
theorem cf32_resampler_phase_cex :
    ((cf32_resampler_init 2 1 8 fun _ => 0).map fun r =>
        (r.phaseIdx, r.upFactor, (cf32_resampler_process r [(0, 0)] 8).1.phaseIdx))
      = some (0, 1, 1) ∧
    ((cf32_resampler_init 2 1 8 fun _ => 0).map fun r =>
        decide ((cf32_resampler_process r [(0, 0)] 8).1.phaseIdx < (r.upFactor : ℤ)))
      = some false := by
  refine ⟨?_, ?_⟩ <;> decide

/-- C4 (amended): the phase accumulator stays in `[0, max(L, M))` — not
`[0, L)`, which fails whenever `M > L` — on entry and exit of every
`cf32_resampler_process` call whose output capacity is not exhausted
before the producible samples are emitted. -/
theorem cf32_resampler_phase_range (res : Resampler) (input : List (ℚ × ℚ))
    (maxOutput : ℕ) (hM : 1 ≤ res.downFactor)
    (hp0 : 0 ≤ res.phaseIdx)
    (hpmax : res.phaseIdx < ((max res.upFactor res.downFactor : ℕ) : ℤ))
    (hcap : ceilPos ((input.length * res.upFactor : ℤ) - res.phaseIdx) res.downFactor
      ≤ min maxOutput res.outputBufSize) :
    0 ≤ (cf32_resampler_process res input maxOutput).1.phaseIdx ∧
    (cf32_resampler_process res input maxOutput).1.phaseIdx
      < ((max res.upFactor res.downFactor : ℕ) : ℤ) := by
  obtain ⟨_, _, h3, h4⟩ := procLoop_master (min maxOutput res.outputBufSize) input res
    0 [] hM hp0 (by omega)
  exact ⟨h3, h4 hpmax⟩

/-- Witness for C4 (amended): a 3/2 resampler processing one sample from
phase 0 exits with phase 1, inside `[0, max(3, 2)) = [0, 3)`. -/
theorem cf32_resampler_phase_range_witness :
    0 ≤ (cf32_resampler_process
        ⟨3, 2, 0, 0, 0, fun _ _ => 0, fun _ => 0, fun _ => 0, 64, 63, 0, 10, true⟩
        [(5, 5)] 10).1.phaseIdx ∧
    (cf32_resampler_process
        ⟨3, 2, 0, 0, 0, fun _ _ => 0, fun _ => 0, fun _ => 0, 64, 63, 0, 10, true⟩
        [(5, 5)] 10).1.phaseIdx < 3 := by
  have h := cf32_resampler_phase_range
    ⟨3, 2, 0, 0, 0, fun _ _ => 0, fun _ => 0, fun _ => 0, 64, 63, 0, 10, true⟩
    [(5, 5)] 10 (by norm_num) (by norm_num) (by norm_num) (by decide)
  simpa using h

theorem procLoop_capacity_zero (input : List (ℚ × ℚ)) (res : Resampler)
    (outIdx : ℕ) (acc : List (ℚ × ℚ)) :
    procLoop 0 input res outIdx acc = (res, outIdx, acc) := by
  cases input with
  | nil => rfl
  | cons a rest =>
    obtain ⟨xi, xq⟩ := a
    rw [procLoop, if_neg (by omega)]

/-- Counterexample for C6: on the passthrough handle produced by
`cf32_resampler_init` at equal rates, `cf32_resampler_process` does not
copy the input — one input sample yields zero output samples and an
empty output buffer, not a bit-identical copy of length one. -/
theorem cf32_resampler_passthrough_cex :
    ((cf32_resampler_init 7 7 5 fun _ => 0).map fun r =>
        ((cf32_resampler_process r [(1, 2)] 5).2.1,
         (cf32_resampler_process r [(1, 2)] 5).2.2.length))
      = some (0, 0) := by decide

/-- C6 (amended): equal nonzero rates initialize successfully (return 0)
with the handle marked uninitialised, but `cf32_resampler_process` on
that handle emits nothing: its output buffer size is zero, so the
clamped capacity is zero and the call returns zero samples with the
state untouched; the copy happens only because the orchestrator bypasses
the resampler in this mode. -/
theorem cf32_resampler_passthrough (rate max_input : ℕ) (proto : ℕ → ℚ)
    (input : List (ℚ × ℚ)) (maxOutput : ℕ) (hr : rate ≠ 0) (r : Resampler)
    (hinit : cf32_resampler_init rate rate max_input proto = some r) :
    r.initialized = false ∧
    (cf32_resampler_process r input maxOutput).2.1 = 0 ∧
    (cf32_resampler_process r input maxOutput).2.2 = [] ∧
    (cf32_resampler_process r input maxOutput).1 = r := by
  unfold cf32_resampler_init at hinit
  rw [if_neg (by simp [hr]), if_pos rfl] at hinit
  have hr0 := (Option.some.inj hinit).symm
  have hbuf : r.outputBufSize = 0 := by rw [hr0]
  have hinitf : r.initialized = false := by rw [hr0]
  have hproc : cf32_resampler_process r input maxOutput = (r, 0, []) := by
    unfold cf32_resampler_process
    rw [hbuf, Nat.min_zero]
    exact procLoop_capacity_zero input r 0 []
  rw [hproc]
  exact ⟨hinitf, rfl, rfl, rfl⟩

/-- Witness for C6 (amended): the passthrough handle for 7 Hz → 7 Hz
yields zero output samples on a one-sample input. -/
theorem cf32_resampler_passthrough_witness :
    (cf32_resampler_process
      ⟨0, 0, 0, 0, 0, fun _ _ => 0, fun _ => 0, fun _ => 0, 0, 0, 0, 0, false⟩
      [(3, 4)] 9).2.1 = 0 :=
  (cf32_resampler_passthrough 7 5 (fun _ => 0) [(3, 4)] 9 (by norm_num) _ rfl).2.1

/-- Counterexample for C7: two accepted configurations the claim says
must be rejected or correctly sized.  First, equal rates above the
signed-32-bit limit are accepted (the passthrough branch runs before the
`INT_MAX` check).  Second, input rate 3, output rate 2 (`L = 2`,
`M = 3`) with `max_input = 2^63` wraps `max_input·L` to zero in
`size_t`, so init accepts and sizes the buffer at 3 complex samples,
although 6 ≤ max_input input samples produce `⌈6·2/3⌉ = 4` samples — the
fourth is silently dropped by the capacity clamp. -/
theorem cf32_resampler_init_guard_cex :
    (cf32_resampler_init (2 ^ 31 + 5) (2 ^ 31 + 5) 0 fun _ => 0).isSome = true ∧
    ((cf32_resampler_init 3 2 (2 ^ 63) fun _ => 0).map fun r => r.outputBufSize)
      = some 3 ∧
    ((cf32_resampler_init 3 2 (2 ^ 63) fun _ => 0).map fun r =>
        (cf32_resampler_process r
          [(1, 0), (1, 0), (1, 0), (1, 0), (1, 0), (1, 0)] 1000).2.1)
      = some 3 := by
  refine ⟨?_, ?_, ?_⟩ <;> decide

/-- C7 (amended): `cf32_resampler_init` rejects a zero rate; rejects a
rate above `INT_MAX` when the rates differ (equal rates take the
passthrough branch first); rejects `L·T` overflow of a signed int; and
rejects configurations whose computed output byte size exceeds
`SIZE_MAX`.  For every accepted resampling configuration whose size
arithmetic does not wrap `size_t`, the allocated output buffer holds all
samples producible from any `n ≤ max_input` input samples started at
phase 0. -/
theorem cf32_resampler_init_guards (input_rate output_rate max_input : ℕ)
    (proto : ℕ → ℚ) :
    (input_rate = 0 ∨ output_rate = 0 →
      cf32_resampler_init input_rate output_rate max_input proto = none) ∧
    (input_rate ≠ output_rate → INT_MAX < input_rate ∨ INT_MAX < output_rate →
      cf32_resampler_init input_rate output_rate max_input proto = none) ∧
    (input_rate ≠ output_rate → input_rate ≤ INT_MAX → output_rate ≤ INT_MAX →
      INT_MAX / RESAMPLER_TAPS_PER_BRANCH
          < output_rate / Nat.gcd output_rate input_rate →
      cf32_resampler_init input_rate output_rate max_input proto = none) ∧
    (input_rate ≠ output_rate → input_rate ≤ INT_MAX → output_rate ≤ INT_MAX →
      output_rate / Nat.gcd output_rate input_rate
          ≤ INT_MAX / RESAMPLER_TAPS_PER_BRANCH →
      SIZE_MAX / (2 * 4)
          < (max_input * (output_rate / Nat.gcd output_rate input_rate) % 2 ^ 64
              / (input_rate / Nat.gcd output_rate input_rate)
              + output_rate / Nat.gcd output_rate input_rate + 1) % 2 ^ 64 →
      cf32_resampler_init input_rate output_rate max_input proto = none) ∧
    (∀ r, cf32_resampler_init input_rate output_rate max_input proto = some r →
      r.initialized = true →
      max_input * r.upFactor < 2 ^ 64 →
      max_input * r.upFactor / r.downFactor + r.upFactor + 1 < 2 ^ 64 →
      ∀ n, n ≤ max_input →
        (n * r.upFactor + (r.downFactor - 1)) / r.downFactor ≤ r.outputBufSize) := by
  refine ⟨?_, ?_, ?_, ?_, ?_⟩
  · intro h
    simp only [cf32_resampler_init, if_pos h]
  · intro hne hgt
    by_cases hz : input_rate = 0 ∨ output_rate = 0
    · simp only [cf32_resampler_init, if_pos hz]
    · simp only [cf32_resampler_init, if_neg hz, if_neg hne, if_pos hgt]
  · intro hne hle1 hle2 hguard
    by_cases hz : input_rate = 0 ∨ output_rate = 0
    · simp only [cf32_resampler_init, if_pos hz]
    · have hnot : ¬(INT_MAX < input_rate ∨ INT_MAX < output_rate) := by omega
      simp only [cf32_resampler_init, if_neg hz, if_neg hne, if_neg hnot,
        if_pos hguard]
  · intro hne hle1 hle2 hg1 hg2
    by_cases hz : input_rate = 0 ∨ output_rate = 0
    · simp only [cf32_resampler_init, if_pos hz]
    · have hnot : ¬(INT_MAX < input_rate ∨ INT_MAX < output_rate) := by omega
      have hg1n : ¬(INT_MAX / RESAMPLER_TAPS_PER_BRANCH
          < output_rate / Nat.gcd output_rate input_rate) := by omega
      simp only [cf32_resampler_init, if_neg hz, if_neg hne, if_neg hnot,
        if_neg hg1n, if_pos hg2]
  · intro r hr hinitr hw1 hw2 n hn
    simp only [cf32_resampler_init] at hr
    by_cases h1 : input_rate = 0 ∨ output_rate = 0
    · rw [if_pos h1] at hr
      exact absurd hr (by simp)
    rw [if_neg h1] at hr
    by_cases h2 : input_rate = output_rate
    · rw [if_pos h2] at hr
      obtain rfl := Option.some.inj hr
      simp at hinitr
    rw [if_neg h2] at hr
    by_cases h3 : INT_MAX < input_rate ∨ INT_MAX < output_rate
    · rw [if_pos h3] at hr
      exact absurd hr (by simp)
    rw [if_neg h3] at hr
    by_cases h4 : INT_MAX / RESAMPLER_TAPS_PER_BRANCH
        < output_rate / Nat.gcd output_rate input_rate
    · rw [if_pos h4] at hr
      exact absurd hr (by simp)
    rw [if_neg h4] at hr
    by_cases h5 : SIZE_MAX / (2 * 4)
        < (max_input * (output_rate / Nat.gcd output_rate input_rate) % 2 ^ 64
            / (input_rate / Nat.gcd output_rate input_rate)
            + output_rate / Nat.gcd output_rate input_rate + 1) % 2 ^ 64
    · rw [if_pos h5] at hr
      exact absurd hr (by simp)
    rw [if_neg h5] at hr
    obtain rfl := Option.some.inj hr
    dsimp only at hw1 hw2 ⊢
    have hinpos : 0 < input_rate := by
      rcases Nat.eq_zero_or_pos input_rate with h0 | h0
      · exact absurd (Or.inl h0) h1
      · exact h0
    have hgcdpos : 0 < Nat.gcd output_rate input_rate :=
      Nat.gcd_pos_of_pos_right _ hinpos
    have hM1 : 1 ≤ input_rate / Nat.gcd output_rate input_rate :=
      (Nat.one_le_div_iff hgcdpos).mpr
        (Nat.le_of_dvd hinpos (Nat.gcd_dvd_right _ _))
    have hwrap1 : max_input * (output_rate / Nat.gcd output_rate input_rate) % 2 ^ 64
        = max_input * (output_rate / Nat.gcd output_rate input_rate) :=
      Nat.mod_eq_of_lt hw1
    have hwrap2 : (max_input * (output_rate / Nat.gcd output_rate input_rate)
          % 2 ^ 64 / (input_rate / Nat.gcd output_rate input_rate)
          + output_rate / Nat.gcd output_rate input_rate + 1) % 2 ^ 64
        = max_input * (output_rate / Nat.gcd output_rate input_rate)
          / (input_rate / Nat.gcd output_rate input_rate)
          + output_rate / Nat.gcd output_rate input_rate + 1 := by
      rw [hwrap1]
      exact Nat.mod_eq_of_lt hw2
    rw [hwrap2]
    calc (n * (output_rate / Nat.gcd output_rate input_rate)
          + (input_rate / Nat.gcd output_rate input_rate - 1))
        / (input_rate / Nat.gcd output_rate input_rate)
        ≤ (max_input * (output_rate / Nat.gcd output_rate input_rate)
            + (input_rate / Nat.gcd output_rate input_rate - 1))
          / (input_rate / Nat.gcd output_rate input_rate) := by
          apply Nat.div_le_div_right
          exact Nat.add_le_add_right (Nat.mul_le_mul_right _ hn) _
      _ ≤ max_input * (output_rate / Nat.gcd output_rate input_rate)
            / (input_rate / Nat.gcd output_rate input_rate) + 1 :=
          nat_add_pred_div_le _ _ hM1
      _ ≤ max_input * (output_rate / Nat.gcd output_rate input_rate)
            / (input_rate / Nat.gcd output_rate input_rate)
          + output_rate / Nat.gcd output_rate input_rate + 1 :=
          Nat.add_le_add_right (Nat.le_add_right _ _) 1

/-- Witness for C7 (amended): the 2/3 resampler for rates 3 → 2 with
`max_input = 4` allocates 5 output slots, enough for the
`⌈3·2/3⌉ = 2` samples producible from `n = 3` inputs. -/
theorem cf32_resampler_init_guards_witness :
    (3 * ((cf32_resampler_init 3 2 4 fun _ => 0).getD
          ⟨0, 0, 0, 0, 0, fun _ _ => 0, fun _ => 0, fun _ => 0, 0, 0, 0, 0,
            false⟩).upFactor
        + (((cf32_resampler_init 3 2 4 fun _ => 0).getD
          ⟨0, 0, 0, 0, 0, fun _ _ => 0, fun _ => 0, fun _ => 0, 0, 0, 0, 0,
            false⟩).downFactor - 1))
      / ((cf32_resampler_init 3 2 4 fun _ => 0).getD
          ⟨0, 0, 0, 0, 0, fun _ _ => 0, fun _ => 0, fun _ => 0, 0, 0, 0, 0,
            false⟩).downFactor
    ≤ ((cf32_resampler_init 3 2 4 fun _ => 0).getD
          ⟨0, 0, 0, 0, 0, fun _ _ => 0, fun _ => 0, fun _ => 0, 0, 0, 0, 0,
            false⟩).outputBufSize := by
  have h := (cf32_resampler_init_guards 3 2 4 fun _ => 0).2.2.2.2
    ((cf32_resampler_init 3 2 4 fun _ => 0).getD
      ⟨0, 0, 0, 0, 0, fun _ _ => 0, fun _ => 0, fun _ => 0, 0, 0, 0, 0, false⟩)
    rfl (by decide) (by decide) (by decide) 3 (by norm_num)
  exact h

/-! ## Theorems: channelizer -/

theorem commutatorPush_outputBufSize (ch : Channelizer) (x : ℚ × ℚ) :
    (commutatorPush ch x).outputBufSize = ch.outputBufSize := by
  dsimp only [commutatorPush]
  split <;> rfl

theorem commutatorPush_setOutputs (t : Channelizer) (f : ℕ → ℕ → ℚ × ℚ)
    (x : ℚ × ℚ) :
    commutatorPush { t with channelOutputs := f } x
      = { commutatorPush t x with channelOutputs := f } := by
  dsimp only [commutatorPush]
  split <;> rename_i h <;> simp only [h, if_true, if_false] <;> split <;>
    first
    | rfl
    | (rename_i h2; exact absurd h h2)
    | (rename_i h2; exact absurd h2 h)

theorem pushBlock_outputBufSize (xs : List (ℚ × ℚ)) :
    ∀ ch : Channelizer, (pushBlock ch xs).outputBufSize = ch.outputBufSize := by
  induction xs with
  | nil => intro ch; rfl
  | cons a rest ih =>
    intro ch
    show (pushBlock (commutatorPush ch a) rest).outputBufSize = ch.outputBufSize
    rw [ih (commutatorPush ch a), commutatorPush_outputBufSize]

theorem pushBlock_setOutputs (xs : List (ℚ × ℚ)) :
    ∀ (t : Channelizer) (f : ℕ → ℕ → ℚ × ℚ),
      pushBlock { t with channelOutputs := f } xs
        = { pushBlock t xs with channelOutputs := f } := by
  induction xs with
  | nil => intro t f; rfl
  | cons a rest ih =>
    intro t f
    show pushBlock (commutatorPush { t with channelOutputs := f } a) rest
        = { pushBlock (commutatorPush t a) rest with channelOutputs := f }
    rw [commutatorPush_setOutputs, ih (commutatorPush t a) f]

theorem analyzeBlock_snd (ch : Channelizer) (oi : ℕ) :
    (analyzeBlock ch oi).2 = if oi < ch.outputBufSize then oi + 1 else oi := by
  dsimp only [analyzeBlock]
  split <;> rename_i h <;> simp [h]

theorem analyzeBlock_fst (ch : Channelizer) (oi : ℕ) :
    (analyzeBlock ch oi).1
      = { ch with channelOutputs := (analyzeBlock ch oi).1.channelOutputs } := by
  dsimp only [analyzeBlock]
  split <;> rfl

theorem analyzeBlock_channelOutputs_high (ch : Channelizer) (oi c j : ℕ)
    (hoi : oi ≤ ch.outputBufSize) (hj : ch.outputBufSize ≤ j) :
    (analyzeBlock ch oi).1.channelOutputs c j = ch.channelOutputs c j := by
  dsimp only [analyzeBlock]
  split
  · rename_i h
    dsimp only
    rw [if_neg]
    rintro ⟨_, hj2⟩
    omega
  · rfl

/-- Master fold specification of `channelizer_process`: starting from a
state whose output buffers are `f` and an output index within the
buffer, the block loop produces `min (outIdx + blocks) output_buf_size`
stored outputs, touches no per-channel slot at or beyond
`output_buf_size`, and moves the commutator/window state exactly as a
pure push-only fold would. -/
theorem channelFold_spec (D : ℕ) (input : ℕ → ℚ × ℚ) :
    ∀ (bs : List ℕ) (p : Channelizer) (f : ℕ → ℕ → ℚ × ℚ) (s : Channelizer)
      (outIdx : ℕ),
      s = { p with channelOutputs := f } →
      outIdx ≤ p.outputBufSize →
      ((bs.foldl (fun acc b => processBlock acc.1 (blockInput D input b) acc.2)
          (s, outIdx)).1
        = { bs.foldl (fun c b => pushBlock c (blockInput D input b)) p with
            channelOutputs :=
              (bs.foldl (fun acc b => processBlock acc.1 (blockInput D input b) acc.2)
                (s, outIdx)).1.channelOutputs }) ∧
      ((bs.foldl (fun acc b => processBlock acc.1 (blockInput D input b) acc.2)
          (s, outIdx)).2
        = min (outIdx + bs.length) p.outputBufSize) ∧
      (∀ c j, p.outputBufSize ≤ j →
        (bs.foldl (fun acc b => processBlock acc.1 (blockInput D input b) acc.2)
          (s, outIdx)).1.channelOutputs c j = f c j) := by
  intro bs
  induction bs with
  | nil =>
    intro p f s outIdx hs hle
    subst hs
    refine ⟨rfl, by simp; omega, fun c j hj => rfl⟩
  | cons b rest ih =>
    intro p f s outIdx hs hle
    subst hs
    rw [List.foldl_cons, List.foldl_cons]
    have hstep : processBlock { p with channelOutputs := f } (blockInput D input b) outIdx
        = analyzeBlock { pushBlock p (blockInput D input b) with channelOutputs := f }
            outIdx := by
      dsimp only [processBlock]
      rw [pushBlock_setOutputs]
    rw [hstep]
    have hbufp : ({ pushBlock p (blockInput D input b) with
        channelOutputs := f } : Channelizer).outputBufSize = p.outputBufSize := by
      show (pushBlock p (blockInput D input b)).outputBufSize = p.outputBufSize
      exact pushBlock_outputBufSize _ _
    have hsnd := analyzeBlock_snd
      { pushBlock p (blockInput D input b) with channelOutputs := f } outIdx
    rw [hbufp] at hsnd
    have hfst := analyzeBlock_fst
      { pushBlock p (blockInput D input b) with channelOutputs := f } outIdx
    have hcollapse :
        ({ { pushBlock p (blockInput D input b) with channelOutputs := f } with
            channelOutputs :=
              (analyzeBlock { pushBlock p (blockInput D input b) with
                  channelOutputs := f } outIdx).1.channelOutputs } : Channelizer)
        = { pushBlock p (blockInput D input b) with
            channelOutputs :=
              (analyzeBlock { pushBlock p (blockInput D input b) with
                  channelOutputs := f } outIdx).1.channelOutputs } := rfl
    rw [hcollapse] at hfst
    have hsndle : (analyzeBlock { pushBlock p (blockInput D input b) with
        channelOutputs := f } outIdx).2 ≤ p.outputBufSize := by
      rw [hsnd]
      split <;> omega
    have hprod : (analyzeBlock { pushBlock p (blockInput D input b) with
          channelOutputs := f } outIdx)
        = ({ pushBlock p (blockInput D input b) with
            channelOutputs :=
              (analyzeBlock { pushBlock p (blockInput D input b) with
                  channelOutputs := f } outIdx).1.channelOutputs },
           (analyzeBlock { pushBlock p (blockInput D input b) with
              channelOutputs := f } outIdx).2) := by
      rw [← hfst]
    rw [hprod]
    obtain ⟨ih1, ih2, ih3⟩ := ih (pushBlock p (blockInput D input b))
      ((analyzeBlock { pushBlock p (blockInput D input b) with
          channelOutputs := f } outIdx).1.channelOutputs)
      _
      ((analyzeBlock { pushBlock p (blockInput D input b) with
          channelOutputs := f } outIdx).2)
      rfl
      (by rw [pushBlock_outputBufSize]; exact hsndle)
    refine ⟨ih1, ?_, ?_⟩
    · rw [ih2, pushBlock_outputBufSize, hsnd, List.length_cons]
      split <;> omega
    · intro c j hj
      rw [ih3 c j (by rw [pushBlock_outputBufSize]; exact hj)]
      exact analyzeBlock_channelOutputs_high _ _ _ _ (by rw [hbufp]; exact hle)
        (by rw [hbufp]; exact hj)

/-- C1: for every channelizer initialized with `M` channels (so
`D = M / 2`) and every input length `0 ≤ n ≤ max_input`,
`channelizer_process` succeeds (returns 0, i.e. `some`) and reports
`⌊n / D⌋` output samples per channel; the `n mod D` trailing samples
change nothing about the count, and `n < D` yields zero samples. -/
theorem channelizer_process_decimation (num_channels : ℕ) (center : ℚ)
    (rate mi : ℕ) (proto : ℕ → ℚ)
    (fft : (ℕ → ℚ) → (ℕ → ℚ) → (ℕ → ℚ) × (ℕ → ℚ)) (ch : Channelizer)
    (hinit : channelizer_init num_channels center rate mi proto fft = some ch)
    (input : ℕ → ℚ × ℚ) (n : ℕ) (hn : n ≤ mi) :
    (channelizer_process ch input n).map Prod.snd
        = some (n / (num_channels / 2)) ∧
    ch.decimationFactor = num_channels / 2 := by
  simp only [channelizer_init] at hinit
  split_ifs at hinit with hg1 hg2 hg3
  all_goals try exact Option.noConfusion hinit
  have hch := (Option.some.inj hinit).symm
  have hD : ch.decimationFactor = num_channels / 2 := by rw [hch]
  have hB : ch.outputBufSize = max (mi / (num_channels / 2) + 1) 2 := by rw [hch]
  have hinitd : ch.initialized = true := by rw [hch]
  have hproc : channelizer_process ch input n
      = some ((List.range (n / ch.decimationFactor)).foldl
          (fun acc b => processBlock acc.1 (blockInput ch.decimationFactor input b) acc.2)
          (ch, 0)) := by
    unfold channelizer_process
    rw [if_neg (by rw [hinitd]; simp)]
  obtain ⟨_, h2, _⟩ := channelFold_spec ch.decimationFactor input
    (List.range (n / ch.decimationFactor)) ch ch.channelOutputs ch 0 rfl
    (by omega)
  refine ⟨?_, hD⟩
  rw [hproc, Option.map_some', h2, List.length_range, Nat.zero_add, hD]
  have hmono : n / (num_channels / 2) ≤ mi / (num_channels / 2) :=
    Nat.div_le_div_right hn
  rw [hB]
  congr 1
  omega

/-- Witness for C1: an `M = 2` channelizer (`D = 1`) with
`max_input = 4` processing 3 samples reports 3 output samples. -/
theorem channelizer_process_decimation_witness :
    (channelizer_process
        ((channelizer_init 2 0 100 4 (fun _ => 0) (fun re im => (re, im))).getD
          ⟨0, 0, 0, 0, 0, 0, fun _ _ => 0, fun _ _ => 0, fun _ _ => 0, fun _ => 0,
           0, fun re im => (re, im), fun _ _ => 0, 0, fun _ => 0, false⟩)
        (fun _ => (1, 2)) 3).map Prod.snd = some 3 := by
  have h := (channelizer_process_decimation 2 0 100 4 (fun _ => 0)
    (fun re im => (re, im))
    ((channelizer_init 2 0 100 4 (fun _ => 0) (fun re im => (re, im))).getD
      ⟨0, 0, 0, 0, 0, 0, fun _ _ => 0, fun _ _ => 0, fun _ _ => 0, fun _ => 0,
       0, fun re im => (re, im), fun _ _ => 0, 0, fun _ => 0, false⟩)
    rfl (fun _ => (1, 2)) 3 (by norm_num)).1
  simpa using h

/-- C10: for every initialized channelizer and every input length
`n`, including `n > max_input`, `channelizer_process` reports exactly
`min (⌊n / D⌋) output_buf_size` samples with
`output_buf_size = max (⌊max_input / D⌋ + 1) 2`, never touches any
per-channel output slot at or beyond `output_buf_size`, and still
consumes every full `D`-sample block: the filter windows and commutator
advance exactly as a pure push of all blocks would, with discarded
outputs having no effect on them. -/
theorem channelizer_process_bounds (num_channels : ℕ) (center : ℚ)
    (rate mi : ℕ) (proto : ℕ → ℚ)
    (fft : (ℕ → ℚ) → (ℕ → ℚ) → (ℕ → ℚ) × (ℕ → ℚ)) (ch : Channelizer)
    (hinit : channelizer_init num_channels center rate mi proto fft = some ch)
    (input : ℕ → ℚ × ℚ) (n : ℕ) :
    ch.outputBufSize = max (mi / (num_channels / 2) + 1) 2 ∧
    (channelizer_process ch input n).map Prod.snd
        = some (min (n / (num_channels / 2)) ch.outputBufSize) ∧
    (∀ c j, ch.outputBufSize ≤ j →
      (channelizer_process ch input n).map (fun r => r.1.channelOutputs c j)
        = some (ch.channelOutputs c j)) ∧
    (channelizer_process ch input n).map (fun r => r.1.filterIndex)
        = some ((pushAllBlocks ch input n).filterIndex) ∧
    (channelizer_process ch input n).map (fun r => r.1.windowWritePos)
        = some ((pushAllBlocks ch input n).windowWritePos) ∧
    (channelizer_process ch input n).map (fun r => r.1.windowRe)
        = some ((pushAllBlocks ch input n).windowRe) ∧
    (channelizer_process ch input n).map (fun r => r.1.windowIm)
        = some ((pushAllBlocks ch input n).windowIm) := by
  simp only [channelizer_init] at hinit
  split_ifs at hinit with hg1 hg2 hg3
  all_goals try exact Option.noConfusion hinit
  have hch := (Option.some.inj hinit).symm
  have hD : ch.decimationFactor = num_channels / 2 := by rw [hch]
  have hB : ch.outputBufSize = max (mi / (num_channels / 2) + 1) 2 := by rw [hch]
  have hinitd : ch.initialized = true := by rw [hch]
  have hproc : channelizer_process ch input n
      = some ((List.range (n / ch.decimationFactor)).foldl
          (fun acc b => processBlock acc.1 (blockInput ch.decimationFactor input b) acc.2)
          (ch, 0)) := by
    unfold channelizer_process
    rw [if_neg (by rw [hinitd]; simp)]
  obtain ⟨h1, h2, h3⟩ := channelFold_spec ch.decimationFactor input
    (List.range (n / ch.decimationFactor)) ch ch.channelOutputs ch 0 rfl
    (by omega)
  have hpushdef : pushAllBlocks ch input n
      = (List.range (n / ch.decimationFactor)).foldl
          (fun c b => pushBlock c (blockInput ch.decimationFactor input b)) ch := rfl
  refine ⟨hB, ?_, ?_, ?_, ?_, ?_, ?_⟩
  · rw [hproc, Option.map_some', h2, List.length_range, Nat.zero_add, hD]
  · intro c j hj
    rw [hproc, Option.map_some', h3 c j hj]
  · rw [hproc, Option.map_some', hpushdef, h1]
  · rw [hproc, Option.map_some', hpushdef, h1]
  · rw [hproc, Option.map_some', hpushdef, h1]
  · rw [hproc, Option.map_some', hpushdef, h1]

/-- Witness for C10: the `M = 2`, `max_input = 4` channelizer processing
9 samples (more than `max_input`) reports
`min (9 / 1) (max (4 + 1) 2) = 5` output samples. -/
theorem channelizer_process_bounds_witness :
    (channelizer_process
        ((channelizer_init 2 0 100 4 (fun _ => 0) (fun re im => (re, im))).getD
          ⟨0, 0, 0, 0, 0, 0, fun _ _ => 0, fun _ _ => 0, fun _ _ => 0, fun _ => 0,
           0, fun re im => (re, im), fun _ _ => 0, 0, fun _ => 0, false⟩)
        (fun _ => (1, 2)) 9).map Prod.snd = some 5 := by
  have h := (channelizer_process_bounds 2 0 100 4 (fun _ => 0)
    (fun re im => (re, im))
    ((channelizer_init 2 0 100 4 (fun _ => 0) (fun re im => (re, im))).getD
      ⟨0, 0, 0, 0, 0, 0, fun _ _ => 0, fun _ _ => 0, fun _ _ => 0, fun _ => 0,
       0, fun re im => (re, im), fun _ _ => 0, 0, fun _ => 0, false⟩)
    rfl (fun _ => (1, 2)) 9).2.1
  have hbuf := (channelizer_process_bounds 2 0 100 4 (fun _ => 0)
    (fun re im => (re, im))
    ((channelizer_init 2 0 100 4 (fun _ => 0) (fun re im => (re, im))).getD
      ⟨0, 0, 0, 0, 0, 0, fun _ _ => 0, fun _ _ => 0, fun _ _ => 0, fun _ => 0,
       0, fun re im => (re, im), fun _ _ => 0, 0, fun _ => 0, false⟩)
    rfl (fun _ => (1, 2)) 9).1
  rw [hbuf] at h
  simpa using h

/-! ## Theorems: FFT library -/

theorem land_pred_eq_zero_iff (n : ℕ) (hn : 0 < n) :
    n &&& (n - 1) = 0 ↔ ∃ k, n = 2 ^ k := by
  constructor
  · intro h
    refine ⟨Nat.log 2 n, ?_⟩
    by_contra hne
    have hk1 : 2 ^ Nat.log 2 n ≤ n := Nat.pow_log_le_self 2 (by omega)
    have hk2 : n < 2 ^ (Nat.log 2 n + 1) :=
      Nat.lt_pow_succ_log_self (by norm_num) n
    have hpow : 2 ^ (Nat.log 2 n + 1) = 2 * 2 ^ Nat.log 2 n := by
      rw [pow_succ]; ring
    have hdv1 : n / 2 ^ Nat.log 2 n = 1 := by
      apply Nat.div_eq_of_lt_le
      · simpa using hk1
      · omega
    have hdv2 : (n - 1) / 2 ^ Nat.log 2 n = 1 := by
      apply Nat.div_eq_of_lt_le
      · simp only [one_mul]
        omega
      · omega
    have hb1 : n.testBit (Nat.log 2 n) = true := by
      rw [Nat.testBit_to_div_mod, hdv1]
      decide
    have hb2 : (n - 1).testBit (Nat.log 2 n) = true := by
      rw [Nat.testBit_to_div_mod, hdv2]
      decide
    have hland : (n &&& (n - 1)).testBit (Nat.log 2 n) = true := by
      rw [Nat.testBit_land, hb1, hb2]
      rfl
    rw [h, Nat.zero_testBit] at hland
    exact Bool.noConfusion hland
  · rintro ⟨k, rfl⟩
    apply Nat.eq_of_testBit_eq
    intro i
    rw [Nat.testBit_land, Nat.zero_testBit, Nat.testBit_two_pow,
      Nat.testBit_two_pow_sub_one]
    by_cases hik : k = i <;> simp [hik]

/-- Counterexample for C5: `hlfft_plan_create` succeeds at size 64, a
power of two above the claimed upper bound of 32 — no upper size bound
is checked anywhere in the library. -/
theorem hlfft_plan_create_cex :
    (hlfft_plan_create 64 true fun _ _ => (0, 0)).isSome = true := by decide

/-- C5 (amended): `hlfft_plan_create` (with allocation success made
explicit) succeeds exactly when the size is a power of two at least
`HLFFT_MIN_SIZE = 2` and allocation succeeds; in particular it succeeds
for every power of two in [2, 32], fails for non-powers of two, for
sizes below 2 and on allocation failure, but enforces no upper size
bound. -/
theorem hlfft_plan_create_spec (n : ℕ) (allocOk : Bool) (tw : ℕ → ℕ → ℚ × ℚ) :
    (hlfft_plan_create n allocOk tw).isSome = true ↔
      (2 ≤ n ∧ (∃ k, n = 2 ^ k) ∧ allocOk = true) := by
  by_cases hv : hlfft_size_valid n = false
  · simp only [hlfft_plan_create, hv, if_true]
    simp only [Option.isSome_none, Bool.false_eq_true, false_iff]
    rintro ⟨h2, ⟨k, rfl⟩, _⟩
    simp only [hlfft_size_valid, HLFFT_MIN_SIZE, Bool.and_eq_false_iff,
      decide_eq_false_iff_not, beq_eq_false_iff_ne, not_le, ne_eq] at hv
    rcases hv with hv | hv
    · omega
    · exact hv ((land_pred_eq_zero_iff _ (by positivity)).mpr ⟨k, rfl⟩)
  · have hv2 : hlfft_size_valid n = true := by
      revert hv; cases hlfft_size_valid n <;> simp
    simp only [hlfft_size_valid, HLFFT_MIN_SIZE, Bool.and_eq_true,
      decide_eq_true_eq, beq_iff_eq] at hv2
    obtain ⟨h2, hland⟩ := hv2
    have hpow : ∃ k, n = 2 ^ k := (land_pred_eq_zero_iff n (by omega)).mp hland
    have hsp : sfft_is_power_of_2 n = true := by
      simp only [sfft_is_power_of_2, Bool.and_eq_true, decide_eq_true_eq,
        beq_iff_eq]
      exact ⟨by omega, hland⟩
    simp only [hlfft_plan_create, hv, if_false]
    cases allocOk
    · simp
    · simp only [if_neg (by simp : ¬(true = false))]
      simp only [scalar_plan_create, SFFT_MIN_SIZE, hsp]
      simp only [show ¬(true = false ∨ n < 2) by simp; omega, if_false]
      simp only [if_neg (by simp : ¬(true = false))]
      simp [h2, hpow]

/-- Witness for C5 (amended): size 8 with successful allocation yields a
plan. -/
theorem hlfft_plan_create_spec_witness :
    (hlfft_plan_create 8 true fun _ _ => (0, 0)).isSome = true :=
  (hlfft_plan_create_spec 8 true fun _ _ => (0, 0)).mpr
    ⟨by norm_num, ⟨3, by norm_num⟩, rfl⟩

theorem inverseRadix4LoopF_eq_forward (p : SfftPlan) :
    ∀ (fuel s : ℕ) (buf : ℕ → ℚ × ℚ),
      inverseRadix4LoopF p fuel s buf = forwardRadix4LoopF p fuel s buf := by
  intro fuel
  induction fuel with
  | zero => intro s buf; rfl
  | succ fuel ih =>
    intro s buf
    simp only [inverseRadix4LoopF, forwardRadix4LoopF]
    split
    · exact ih (s + 1) (radix4Stage (p.tw s) p.n s buf)
    · rfl

/-- C9: for every plan and every input, the inverse transform is exactly
the conjugate of the forward transform of the conjugated input — the
`conj → forward → conj` realisation — with no `1/N` scaling anywhere:
both sides run the identical radix-4/radix-2 stage pipeline, and the
only difference is the sign of the imaginary part on the way in and
out. -/
theorem scalar_inverse_eq_conj_forward_conj (p : SfftPlan) (x : ℕ → ℚ × ℚ)
    (i : ℕ) (hi : i < p.n) :
    scalar_inverse p x i = conjC (scalar_forward p (fun j => conjC (x j)) i) := by
  unfold scalar_inverse scalar_forward inverseRadix4Loop forwardRadix4Loop conjC
  rw [inverseRadix4LoopF_eq_forward]

/-- Witness for C9: a 4-point plan with concrete twiddles on a concrete
input, checked at bin 2. -/
theorem scalar_inverse_eq_conj_forward_conj_witness :
    (2 : ℕ) < (4 : ℕ) ∧
    scalar_inverse ⟨4, 2, 1, false, fun _ _ => (0, 1)⟩ (fun i => ((i : ℚ), 1)) 2
      = conjC (scalar_forward ⟨4, 2, 1, false, fun _ _ => (0, 1)⟩
          (fun j => conjC (((j : ℚ), 1))) 2) :=
  ⟨by norm_num,
   scalar_inverse_eq_conj_forward_conj ⟨4, 2, 1, false, fun _ _ => (0, 1)⟩
     (fun i => ((i : ℚ), 1)) 2 (by norm_num)⟩

end HydraSDR
